import Mathlib

/-!
Verification development for the document-preprocessing pipeline of
`src/main2.py` (functions `clean_text`, `load_file`, `preprocess_documents`,
`main`).  Text is embedded as `List Char`; each regex substitution of
`clean_text` becomes an executable scanner with the leftmost, non-overlapping
semantics of Python's `re.sub`.  The `RecursiveCharacterTextSplitter` used by
`preprocess_documents` is an external langchain dependency whose code is not
part of the repository; it is modelled from the specification (see the doc
comments on `splitAtoms` and `mergeChunks`).
-/

/-- Python `\s` (Unicode whitespace) for `str` patterns: the set of characters
matched by `re` whitespace and by `str.strip()`. -/
def isPySpace (c : Char) : Bool :=
  decide (c.toNat = 32 ∨ c.toNat = 9 ∨ c.toNat = 10 ∨ c.toNat = 11 ∨ c.toNat = 12 ∨
    c.toNat = 13 ∨ (28 ≤ c.toNat ∧ c.toNat ≤ 31) ∨ c.toNat = 133 ∨ c.toNat = 160 ∨
    c.toNat = 5760 ∨ (8192 ≤ c.toNat ∧ c.toNat ≤ 8202) ∨ c.toNat = 8232 ∨
    c.toNat = 8233 ∨ c.toNat = 8239 ∨ c.toNat = 8287 ∨ c.toNat = 12288)

/-- Python `\d` restricted to ASCII digits.  (Non-ASCII decimal digits are
removed later by the allow-list stage, so no claim is sensitive to the
difference.) -/
def isDigit (c : Char) : Bool :=
  decide (48 ≤ c.toNat ∧ c.toNat ≤ 57)

/-- The allow-list of stage 9 of `clean_text`, the character class
`[a-zA-Z0-9.,;:?!()\-\n /%]` (letters, digits, `. , ; : ? ! ( ) -`, newline,
space, `/`, `%`). -/
def allowChar (c : Char) : Bool :=
  decide ((97 ≤ c.toNat ∧ c.toNat ≤ 122) ∨ (65 ≤ c.toNat ∧ c.toNat ≤ 90) ∨
    (48 ≤ c.toNat ∧ c.toNat ≤ 57) ∨ c.toNat = 46 ∨ c.toNat = 44 ∨ c.toNat = 59 ∨
    c.toNat = 58 ∨ c.toNat = 63 ∨ c.toNat = 33 ∨ c.toNat = 40 ∨ c.toNat = 41 ∨
    c.toNat = 45 ∨ c.toNat = 10 ∨ c.toNat = 32 ∨ c.toNat = 47 ∨ c.toNat = 37)

/-- The four punctuation characters `! ? . ,` collapsed by stage 10 of
`clean_text` (regex `([!?.,])\1+`). -/
def isPunct (c : Char) : Bool :=
  decide (c.toNat = 33 ∨ c.toNat = 63 ∨ c.toNat = 46 ∨ c.toNat = 44)

/-- Stage 2 of `clean_text`, `re.sub(r"<[^>]+>", " ", text)`: scanner state
machine.  The accumulator holds (reversed) the characters read since the last
unmatched opening bracket; on a closing bracket with at least one character in
between, the whole bracketed run is replaced by one space. -/
def removeTagsAux : List Char → List Char → List Char
  | acc, [] => acc.reverse
  | [], c :: t => if c = '<' then removeTagsAux [c] t else c :: removeTagsAux [] t
  | a :: as, c :: t =>
    if c = '>' then
      if as = [] then (a :: as).reverse ++ '>' :: removeTagsAux [] t
      else ' ' :: removeTagsAux [] t
    else removeTagsAux (c :: a :: as) t

/-- Stage 2 of `clean_text`: strip markup tags `<...>`, replacing each with a
single space. -/
def removeTags (l : List Char) : List Char := removeTagsAux [] l

/-- Maximal run of non-whitespace characters (`\S+`) at the front of a list. -/
def nonWsRun (l : List Char) : List Char := l.takeWhile (fun c => !(isPySpace c))

/-- One attempted match of `http\S+|www\S+|@\S+` at the head of the list,
returning the remainder after the match (alternatives tried in regex order;
each needs at least one non-whitespace character after the prefix). -/
def urlMatch (l : List Char) : Option (List Char) :=
  if l.take 4 = ['h', 't', 't', 'p'] ∧ nonWsRun (l.drop 4) ≠ [] then
    some (l.drop (4 + (nonWsRun (l.drop 4)).length))
  else if l.take 3 = ['w', 'w', 'w'] ∧ nonWsRun (l.drop 3) ≠ [] then
    some (l.drop (3 + (nonWsRun (l.drop 3)).length))
  else if l.take 1 = ['@'] ∧ nonWsRun (l.drop 1) ≠ [] then
    some (l.drop (1 + (nonWsRun (l.drop 1)).length))
  else none

/-- Fuelled scanner for stage 3 of `clean_text`,
`re.sub(r"http\S+|www\S+|@\S+", " ", text)`.  The fuel is an upper bound on
the input length; every step consumes at least one character, so the fuel
never runs out when initialised with the length. -/
def removeUrlsAux : Nat → List Char → List Char
  | 0, l => l
  | _ + 1, [] => []
  | f + 1, c :: t =>
    match urlMatch (c :: t) with
    | some rest => ' ' :: removeUrlsAux f rest
    | none => c :: removeUrlsAux f t

/-- Stage 3 of `clean_text`: remove URLs and email-like tokens, replacing each
with a single space. -/
def removeUrls (l : List Char) : List Char := removeUrlsAux l.length l

/-- Stage 4 of `clean_text`: the six single-character `str.replace` calls
(curly quotes to straight quotes, en/em dashes to hyphen).  Since every
pattern and every replacement is a single character and no replacement equals
a later pattern, the sequential replaces equal one simultaneous map. -/
def quoteMap (c : Char) : Char :=
  if c.toNat = 8217 ∨ c.toNat = 8216 then Char.ofNat 39
  else if c.toNat = 8220 ∨ c.toNat = 8221 then Char.ofNat 34
  else if c.toNat = 8211 ∨ c.toNat = 8212 then '-'
  else c

/-- Stage 4 of `clean_text` applied to a whole text. -/
def mapQuotes (l : List Char) : List Char := l.map quoteMap

/-- First half of stage 5 of `clean_text`, `re.sub(r"[••◦▪‣]", "-", text)`
(`•` and `•` are the same character, so the class is the four bullet
glyphs). -/
def bulletMap (c : Char) : Char :=
  if c.toNat = 8226 ∨ c.toNat = 9702 ∨ c.toNat = 9642 ∨ c.toNat = 8227 then '-' else c

/-- First half of stage 5 of `clean_text` applied to a whole text. -/
def mapBullets (l : List Char) : List Char := l.map bulletMap

/-- Match of `\s*\d+[\).]` (the part of the numbered-list pattern after the
leading newline): greedy whitespace run, then a nonempty greedy digit run,
then `)` or `.`; returns the remainder.  Whitespace and digits are disjoint
and a digit is neither `)` nor `.`, so the greedy runs admit no backtracking. -/
def numMatch (t : List Char) : Option (List Char) :=
  let w := t.dropWhile isPySpace
  let d := w.takeWhile isDigit
  if d = [] then none
  else
    match w.drop d.length with
    | ')' :: rest => some rest
    | '.' :: rest => some rest
    | _ => none

/-- Fuelled scanner for the second half of stage 5 of `clean_text`,
`re.sub(r"(\n\s*\d+[\).])", "\n-", text)`. -/
def fixNumListsAux : Nat → List Char → List Char
  | 0, l => l
  | _ + 1, [] => []
  | f + 1, c :: t =>
    if c = '\n' then
      match numMatch t with
      | some rest => '\n' :: '-' :: fixNumListsAux f rest
      | none => c :: fixNumListsAux f t
    else c :: fixNumListsAux f t

/-- Second half of stage 5 of `clean_text`: rewrite numbered list markers after
a newline into a hyphen marker. -/
def fixNumLists (l : List Char) : List Char := fixNumListsAux l.length l

/-- Case-insensitive prefix test for an ASCII-lowercase pattern (the
`re.IGNORECASE` matching of `Page` and `of`; none of these letters has a
non-ASCII case-folding). -/
def ciPrefix : List Char → List Char → Bool
  | [], _ => true
  | _ :: _, [] => false
  | p :: ps, c :: cs =>
    (if 65 ≤ c.toNat ∧ c.toNat ≤ 90 then Char.ofNat (c.toNat + 32) else c) = p && ciPrefix ps cs

/-- One attempted match of `Page\s*\d+(\s*of\s*\d+)?` (IGNORECASE) at the head
of the list, returning the remainder.  The optional group commits iff after
the first digit run, a whitespace run, `of`, a whitespace run and at least one
digit follow (greedy runs over disjoint character sets admit no useful
backtracking). -/
def pageMatch (l : List Char) : Option (List Char) :=
  if ciPrefix ['p', 'a', 'g', 'e'] l then
    let u := l.drop 4
    let w := u.dropWhile isPySpace
    let d := w.takeWhile isDigit
    if d = [] then none
    else
      let v := w.drop d.length
      let w2 := v.dropWhile isPySpace
      if ciPrefix ['o', 'f'] w2 then
        let u2 := w2.drop 2
        let w3 := u2.dropWhile isPySpace
        let d2 := w3.takeWhile isDigit
        if d2 = [] then some v else some (w3.drop d2.length)
      else some v
  else none

/-- Fuelled scanner for stage 6 of `clean_text`,
`re.sub(r"Page\s*\d+(\s*of\s*\d+)?", " ", text, flags=re.IGNORECASE)`. -/
def removePageAux : Nat → List Char → List Char
  | 0, l => l
  | _ + 1, [] => []
  | f + 1, c :: t =>
    match pageMatch (c :: t) with
    | some rest => ' ' :: removePageAux f rest
    | none => c :: removePageAux f t

/-- Stage 6 of `clean_text`: remove page headers/footers `Page N [of M]`,
replacing each with a single space. -/
def removePage (l : List Char) : List Char := removePageAux l.length l

/-- Stage 7 of `clean_text`, `re.sub(r"(?<!\n)\n(?!\n)", " ", text)`: a newline
not adjacent to another newline becomes a space.  The first argument is the
previous character of the original text (the lookbehind context). -/
def unwrapAux : Option Char → List Char → List Char
  | _, [] => []
  | prev, c :: t =>
    (if c = '\n' ∧ prev ≠ some '\n' ∧ t.head? ≠ some '\n' then ' ' else c) :: unwrapAux (some c) t

/-- Stage 7 of `clean_text`: un-wrap soft line breaks. -/
def unwrap (l : List Char) : List Char := unwrapAux none l

/-- Stage 8 of `clean_text`, `re.sub(r"\s+", " ", text)`: every maximal run of
whitespace becomes a single space.  The Boolean records whether the previous
character belonged to a whitespace run whose space was already emitted. -/
def collapseWsAux : Bool → List Char → List Char
  | _, [] => []
  | inWs, c :: t =>
    if isPySpace c then
      if inWs then collapseWsAux true t else ' ' :: collapseWsAux true t
    else c :: collapseWsAux false t

/-- Stage 8 of `clean_text`: normalize whitespace. -/
def collapseWs (l : List Char) : List Char := collapseWsAux false l

/-- Stage 10 of `clean_text`, `re.sub(r"([!?.,])\1+", r"\1", text)`: a run of
two or more identical characters among `! ? . ,` collapses to one.  The state
is the punctuation character just emitted, while its run may continue. -/
def collapsePunctAux : Option Char → List Char → List Char
  | _, [] => []
  | s, c :: t =>
    if s = some c then collapsePunctAux s t
    else if isPunct c then c :: collapsePunctAux (some c) t
    else c :: collapsePunctAux none t

/-- Stage 10 of `clean_text`: normalize repeated punctuation. -/
def collapsePunct (l : List Char) : List Char := collapsePunctAux none l

/-- One attempted match of the part of `\n\s*\n+` after the leading newline:
with `w` the maximal whitespace run, the regex match extends exactly through
the last newline inside `w` (greedy `\s*` backtracks until `\n+` can start),
and fails when `w` contains no newline. -/
def blankMatch (t : List Char) : Option (List Char) :=
  let w := t.takeWhile isPySpace
  if '\n' ∈ w then
    some (t.drop (w.length - (w.reverse.takeWhile (fun c => !(c == '\n'))).length))
  else none

/-- Fuelled scanner for stage 11 of `clean_text`,
`re.sub(r"\n\s*\n+", "\n\n", text)`. -/
def collapseBlankLinesAux : Nat → List Char → List Char
  | 0, l => l
  | _ + 1, [] => []
  | f + 1, c :: t =>
    if c = '\n' then
      match blankMatch t with
      | some rest => '\n' :: '\n' :: collapseBlankLinesAux f rest
      | none => c :: collapseBlankLinesAux f t
    else c :: collapseBlankLinesAux f t

/-- Stage 11 of `clean_text`: collapse multiple blank lines into one. -/
def collapseBlankLines (l : List Char) : List Char := collapseBlankLinesAux l.length l

/-- Right trim: remove the trailing run of Python whitespace. -/
def rtrim : List Char → List Char
  | [] => []
  | c :: t => if isPySpace c ∧ rtrim t = [] then [] else c :: rtrim t

/-- Stage 12 of `clean_text`, `text.strip()`: remove leading and trailing
Python whitespace. -/
def stripL (l : List Char) : List Char := rtrim (l.dropWhile isPySpace)

/-- Output of stages 1-8 of `clean_text`.  Stage 1,
`text.encode("utf-8", "ignore").decode()`, is the identity here: a Lean `Char`
is a Unicode scalar value, and the only code points Python's lossy UTF-8
encoding drops are unpaired surrogates, which are not scalar values. -/
def stage8out (l : List Char) : List Char :=
  collapseWs (unwrap (removePage (fixNumLists (mapBullets (mapQuotes (removeUrls (removeTags l)))))))

/-- Output of stages 1-10 of `clean_text`. -/
def stage10out (l : List Char) : List Char :=
  collapsePunct (List.filter allowChar (stage8out l))

/-- The full `clean_text` normalizer of `src/main2.py` (stages 1-12 in source
order). -/
def clean_text (l : List Char) : List Char :=
  stripL (collapseBlankLines (stage10out l))

/-- Splits off everything before the first occurrence of `sep`: returns
`some (pre, post)` with the input equal to `pre ++ sep ++ post` and `pre`
minimal, or `none` when `sep` does not occur. -/
def breakOn (sep : List Char) : List Char → Option (List Char × List Char)
  | [] => if sep = [] then some ([], []) else none
  | c :: t =>
    if sep.isPrefixOf (c :: t) then some ([], (c :: t).drop sep.length)
    else
      match breakOn sep t with
      | some (pre, post) => some (c :: pre, post)
      | none => none

/-- Fuelled split of a text at every occurrence of a (nonempty) separator,
dropping the separators. -/
def splitOnFuel : Nat → List Char → List Char → List (List Char)
  | 0, _, t => [t]
  | f + 1, sep, t =>
    match breakOn sep t with
    | none => [t]
    | some (pre, post) => pre :: splitOnFuel f sep post

/-- Split a text at every occurrence of a separator, dropping the separators. -/
def splitOnL (sep t : List Char) : List (List Char) :=
  if sep = [] then [t] else splitOnFuel t.length sep t

/-- Modelled from the spec: the recursive separator-prioritized splitting of
the langchain `RecursiveCharacterTextSplitter` configured in
`preprocess_documents`; the splitter's code is an external dependency, not in
the repository sources.  Per §4.3: try the highest-priority separator, recurse
with the next lower-priority separator into every piece still longer than
`chunk_size`, and when no separator remains, emit the oversized unbreakable
token as-is. -/
def splitAtoms (size : Nat) : List (List Char) → List Char → List (List Char)
  | _, [] => [[]]
  | [], t => [t]
  | sep :: rest, t =>
    if t.length ≤ size then [t]
    else (splitOnL sep t).flatMap (splitAtoms size rest)

/-- The trailing `n` characters of a list (the whole list when shorter). -/
def lastN (n : Nat) (l : List Char) : List Char := l.drop (l.length - n)

/-- Modelled from the spec: the greedy merge phase of the langchain
`RecursiveCharacterTextSplitter` (external dependency, not in the repository
sources).  Per §4.3, atomic pieces are greedily concatenated into chunks up to
`chunk_size`, and each chunk after the first is seeded with the trailing
`chunk_overlap` characters of the previous chunk.  §3 makes the `chunk_size`
bound an unconditional invariant (the only stated exception is a single
oversized unbreakable token, emitted as-is and not seeded), so when the
overlap seed plus the next piece would itself exceed `chunk_size` the seed is
dropped rather than violate the bound. -/
def mergeChunks (size overlap : Nat) : List Char → List (List Char) → List (List Char)
  | buf, [] => if buf = [] then [] else [buf]
  | buf, p :: ps =>
    if size < p.length then
      (if buf = [] then [] else [buf]) ++ p :: mergeChunks size overlap [] ps
    else if buf.length + p.length ≤ size then
      mergeChunks size overlap (buf ++ p) ps
    else if (lastN overlap buf).length + p.length ≤ size then
      buf :: mergeChunks size overlap (lastN overlap buf ++ p) ps
    else
      buf :: mergeChunks size overlap p ps

/-- Modelled from the spec: the full split of one cleaned segment into chunks
(§4.3 of the spec; the splitter itself is the external langchain dependency
configured at `src/main2.py` lines 93-98). -/
def splitText (size overlap : Nat) (seps : List (List Char)) (t : List Char) :
    List (List Char) :=
  mergeChunks size overlap [] (splitAtoms size seps t)

/-- The separator priority configured in `preprocess_documents`:
`["\n\n", "\n", ".", " "]`. -/
def progSeps : List (List Char) := [['\n', '\n'], ['\n'], ['.'], [' ']]

/-- Events of one pipeline run, in the order `main` performs them. -/
inductive PipeEvent where
  | existsCheck
  | notFoundExit
  | unsupportedError
  | loaderRun
  | cleaningDone
  | invalidConfig
  | splitDone
  | saved
deriving DecidableEq

/-- The four extraction strategies `load_file` dispatches to. -/
inductive LoaderKind where
  | pypdf
  | docx2txt
  | unstructuredHTML
  | textLoader
deriving DecidableEq

/-- ASCII lowercasing, the `str.lower()` applied to the suffix in `load_file`
(no non-ASCII character lowercases into the letters of the supported
extensions, so ASCII folding decides membership exactly as Python does). -/
def lowerChar (c : Char) : Char :=
  if 65 ≤ c.toNat ∧ c.toNat ≤ 90 then Char.ofNat (c.toNat + 32) else c

/-- `pathlib.Path(p).suffix`: the extension of the final `/`-separated
component, including the dot; empty when the name has no dot, starts with its
only dot, or ends with a dot. -/
def pathSuffix (p : List Char) : List Char :=
  let revName := p.reverse.takeWhile (fun c => !(c == '/'))
  let afterDot := revName.takeWhile (fun c => !(c == '.'))
  if afterDot.length = revName.length then []
  else if afterDot.length = 0 then []
  else if afterDot.length + 1 = revName.length then []
  else '.' :: afterDot.reverse

/-- The lowercased extension `Path(file_path).suffix.lower()` computed at the
top of `load_file`. -/
def extOf (p : List Char) : List Char := (pathSuffix p).map lowerChar

/-- The extension dispatch of `load_file` in `src/main2.py`: selects a loader
strategy from the lowercased suffix, or fails with the unsupported-file-type
error (the `ValueError`, named `UnsupportedFormat` in the spec) before any
strategy is constructed or invoked. -/
def load_file (p : List Char) : Except (List Char) LoaderKind :=
  if extOf p = ".pdf".toList then Except.ok LoaderKind.pypdf
  else if extOf p = ".docx".toList ∨ extOf p = ".doc".toList then Except.ok LoaderKind.docx2txt
  else if extOf p = ".html".toList ∨ extOf p = ".htm".toList then
    Except.ok LoaderKind.unstructuredHTML
  else if extOf p = ".txt".toList then Except.ok LoaderKind.textLoader
  else Except.error (extOf p)

/-- The supported extensions of `load_file`. -/
def supportedExts : List (List Char) :=
  [".pdf".toList, ".docx".toList, ".doc".toList, ".html".toList, ".htm".toList, ".txt".toList]

/-- Splitter configuration (`chunk_size`, `chunk_overlap`); the spec's §6
configuration surface. -/
structure SplitCfg where
  size : Nat
  overlap : Nat

/-- The event trace of `main` in `src/main2.py`, parameterized over the spec's
configuration surface: the existence check comes first; a missing path exits
early; then `load_file` either fails on an unsupported extension (before any
strategy runs) or runs its loader; then `preprocess_documents` cleans the
documents and only then constructs the splitter, whose configuration
validation is modelled from the spec (`InvalidConfiguration` when
`chunk_overlap` is at least `chunk_size`; the splitter is the external
langchain dependency); on valid configuration the run splits and saves. -/
def mainTrace (cfg : SplitCfg) (p : List Char) (pathExists : Bool) : List PipeEvent :=
  if pathExists = false then [PipeEvent.existsCheck, PipeEvent.notFoundExit]
  else
    match load_file p with
    | Except.error _ => [PipeEvent.existsCheck, PipeEvent.unsupportedError]
    | Except.ok _ =>
      PipeEvent.existsCheck :: PipeEvent.loaderRun :: PipeEvent.cleaningDone ::
        (if cfg.size ≤ cfg.overlap then [PipeEvent.invalidConfig]
         else [PipeEvent.splitDone, PipeEvent.saved])

theorem mem_collapseWsAux {c : Char} (b : Bool) (l : List Char)
    (h : c ∈ collapseWsAux b l) : c = ' ' ∨ isPySpace c = false := by
  induction l generalizing b with
  | nil => simp [collapseWsAux] at h
  | cons a t ih =>
    rw [collapseWsAux] at h
    by_cases ha : isPySpace a
    · simp only [ha, if_true] at h
      by_cases hb : b
      · exact ih _ (by simpa [hb] using h)
      · rcases List.mem_cons.mp (by simpa [hb] using h) with h1 | h1
        · exact Or.inl h1
        · exact ih _ h1
    · simp only [ha, if_false] at h
      rcases List.mem_cons.mp h with h1 | h1
      · exact Or.inr (h1 ▸ (by simpa using ha))
      · exact ih _ h1

theorem mem_collapsePunctAux {c : Char} (s : Option Char) (l : List Char)
    (h : c ∈ collapsePunctAux s l) : c ∈ l := by
  induction l generalizing s with
  | nil => simp [collapsePunctAux] at h
  | cons a t ih =>
    rw [collapsePunctAux] at h
    by_cases hs : s = some a
    · exact List.mem_cons_of_mem _ (ih _ (by simpa [hs] using h))
    · by_cases hp : isPunct a
      · rcases List.mem_cons.mp (by simpa [hs, hp] using h) with h1 | h1
        · exact h1 ▸ List.mem_cons_self _ _
        · exact List.mem_cons_of_mem _ (ih _ h1)
      · rcases List.mem_cons.mp (by simpa [hs, hp] using h) with h1 | h1
        · exact h1 ▸ List.mem_cons_self _ _
        · exact List.mem_cons_of_mem _ (ih _ h1)

theorem mem_rtrim {c : Char} (l : List Char) (h : c ∈ rtrim l) : c ∈ l := by
  induction l with
  | nil => simp [rtrim] at h
  | cons a t ih =>
    rw [rtrim] at h
    by_cases hc : isPySpace a ∧ rtrim t = []
    · simp [hc] at h
    · rcases List.mem_cons.mp (by simpa [hc] using h) with h1 | h1
      · exact h1 ▸ List.mem_cons_self _ _
      · exact List.mem_cons_of_mem _ (ih h1)

theorem mem_stripL {c : Char} (l : List Char) (h : c ∈ stripL l) : c ∈ l :=
  (List.dropWhile_sublist isPySpace).mem (mem_rtrim _ h)

theorem collapseBlankLinesAux_id (f : Nat) (l : List Char) (h : '\n' ∉ l) :
    collapseBlankLinesAux f l = l := by
  induction f generalizing l with
  | zero => rfl
  | succ f ih =>
    match l with
    | [] => rfl
    | c :: t =>
      have hc : ¬(c = '\n') := fun hc => h (hc ▸ List.mem_cons_self _ _)
      rw [collapseBlankLinesAux, if_neg hc]
      exact congrArg _ (ih t (fun ht => h (List.mem_cons_of_mem _ ht)))

theorem collapseBlankLines_id (l : List Char) (h : '\n' ∉ l) :
    collapseBlankLines l = l := collapseBlankLinesAux_id _ _ h

theorem no_newline_collapseWs (l : List Char) : '\n' ∉ collapseWs l := by
  intro h
  rcases mem_collapseWsAux false l h with h1 | h1
  · exact absurd h1 (by decide)
  · exact absurd h1 (by decide)

theorem no_newline_stage10out (x : List Char) : '\n' ∉ stage10out x := by
  intro h
  exact no_newline_collapseWs _
    (List.mem_of_mem_filter (mem_collapsePunctAux _ _ h))

theorem no_newline_clean (x : List Char) : '\n' ∉ clean_text x := by
  intro h
  rw [clean_text, collapseBlankLines_id _ (no_newline_stage10out x)] at h
  exact no_newline_stage10out x (mem_stripL _ h)

theorem allow_of_mem_clean {c : Char} (x : List Char) (h : c ∈ clean_text x) :
    allowChar c = true := by
  rw [clean_text, collapseBlankLines_id _ (no_newline_stage10out x)] at h
  have h2 := mem_stripL _ h
  rw [stage10out] at h2
  exact List.of_mem_filter (mem_collapsePunctAux _ _ h2)

/-- No two consecutive identical characters drawn from `! ? . ,`. -/
def noDP : List Char → Prop
  | [] => True
  | [_] => True
  | a :: b :: t => ¬(a = b ∧ isPunct a = true) ∧ noDP (b :: t)

theorem noDP_nil : noDP [] := trivial

theorem noDP_tail {a : Char} {t : List Char} (h : noDP (a :: t)) : noDP t := by
  match t with
  | [] => trivial
  | b :: t => exact h.2

theorem noDP_cons_of_not_punct {c : Char} {m : List Char} (hc : isPunct c = false)
    (h : noDP m) : noDP (c :: m) := by
  match m with
  | [] => trivial
  | b :: t => exact ⟨fun hh => absurd (hc.symm.trans hh.2) (by decide), h⟩

theorem cpAux_noDP (l : List Char) :
    ∀ s : Option Char, (∀ x, s = some x → isPunct x = true) →
      noDP (collapsePunctAux s l) ∧
      (∀ x h t, s = some x → collapsePunctAux s l = h :: t → h ≠ x) := by
  induction l with
  | nil => intro s _; exact ⟨trivial, fun x h t _ heq => by simp [collapsePunctAux] at heq⟩
  | cons a t ih =>
    intro s hs
    rw [collapsePunctAux]
    by_cases h1 : s = some a
    · simpa [h1] using ih s hs
    · by_cases h2 : isPunct a
      · simp only [h1, if_false, h2, if_true]
        obtain ⟨ndp, hh⟩ := ih (some a) (fun x hx => by injection hx with hx; exact hx ▸ h2)
        constructor
        · match hm : collapsePunctAux (some a) t with
          | [] => trivial
          | b :: m =>
            exact ⟨fun hab => (hh a b m rfl hm) hab.1.symm, hm ▸ ndp⟩
        · intro x h t' hsx heq
          injection heq with e1 _
          exact fun hhx => h1 (by rw [hsx, ← hhx, e1])
      · simp only [h1, if_false, h2, if_false]
        obtain ⟨ndp, _⟩ := ih none (fun x hx => by simp at hx)
        constructor
        · exact noDP_cons_of_not_punct (by simpa using h2) ndp
        · intro x h t' hsx heq
          injection heq with e1 _
          exact fun hhx => h1 (by rw [hsx, ← hhx, e1])

theorem noDP_collapsePunct (l : List Char) : noDP (collapsePunct l) :=
  (cpAux_noDP l none (fun x hx => by simp at hx)).1

theorem noDP_dropWhile (p : Char → Bool) (l : List Char) (h : noDP l) :
    noDP (l.dropWhile p) := by
  induction l with
  | nil => trivial
  | cons a t ih =>
    by_cases ha : p a
    · rw [List.dropWhile_cons_of_pos ha]; exact ih (noDP_tail h)
    · rwa [List.dropWhile_cons_of_neg ha]

theorem noDP_cons_rtrim {c : Char} {t : List Char} (h : noDP (c :: t)) :
    noDP (c :: rtrim t) := by
  induction t generalizing c with
  | nil => trivial
  | cons d t' ih =>
    rw [rtrim]
    by_cases hc : isPySpace d ∧ rtrim t' = []
    · simp only [hc, if_true]; trivial
    · simp only [hc, if_false]
      exact ⟨h.1, ih h.2⟩

theorem noDP_rtrim (l : List Char) (h : noDP l) : noDP (rtrim l) := by
  match l with
  | [] => trivial
  | c :: t =>
    rw [rtrim]
    by_cases hc : isPySpace c ∧ rtrim t = []
    · simp only [hc, if_true]; trivial
    · simp only [hc, if_false]; exact noDP_cons_rtrim h

theorem noDP_stripL (l : List Char) (h : noDP l) : noDP (stripL l) :=
  noDP_rtrim _ (noDP_dropWhile _ _ h)

theorem noDP_clean (x : List Char) : noDP (clean_text x) := by
  rw [clean_text, collapseBlankLines_id _ (no_newline_stage10out x)]
  exact noDP_stripL _ (noDP_collapsePunct _)

theorem noDP_no_pair {l : List Char} (h : noDP l) :
    ∀ (l1 : List Char) (a : Char) (l2 : List Char), l = l1 ++ a :: a :: l2 →
      isPunct a = false := by
  induction l with
  | nil => intro l1 a l2 he; exact absurd he (by simp)
  | cons c t ih =>
    intro l1 a l2 he
    match l1 with
    | [] =>
      injection he with e1 e2
      subst e1; subst e2
      exact Bool.eq_false_iff.mpr (fun hp => h.1 ⟨rfl, hp⟩)
    | c' :: l1' =>
      injection he with e1 e2
      exact ih (noDP_tail h) l1' a l2 e2

theorem allow_le {c : Char} (h : allowChar c = true) : c.toNat ≤ 122 := by
  simp only [allowChar, decide_eq_true_eq] at h
  omega

theorem removeTagsAux_id (l : List Char) (h : '<' ∉ l) : removeTagsAux [] l = l := by
  induction l with
  | nil => rfl
  | cons c t ih =>
    have hc : ¬(c = '<') := fun hc => h (hc ▸ List.mem_cons_self _ _)
    rw [removeTagsAux, if_neg hc]
    exact congrArg _ (ih (fun ht => h (List.mem_cons_of_mem _ ht)))

theorem removeTags_id (l : List Char) (h : ∀ c ∈ l, allowChar c = true) :
    removeTags l = l := by
  refine removeTagsAux_id l (fun hmem => ?_)
  exact absurd (h _ hmem) (by decide)

theorem quoteMap_eq_self {c : Char} (h : allowChar c = true) : quoteMap c = c := by
  have hle := allow_le h
  rw [quoteMap, if_neg (by omega), if_neg (by omega), if_neg (by omega)]

theorem mapQuotes_id (l : List Char) (h : ∀ c ∈ l, allowChar c = true) :
    mapQuotes l = l := by
  induction l with
  | nil => rfl
  | cons c t ih =>
    rw [mapQuotes, List.map_cons, quoteMap_eq_self (h c (List.mem_cons_self _ _))]
    exact congrArg _ (ih (fun d hd => h d (List.mem_cons_of_mem _ hd)))

theorem bulletMap_eq_self {c : Char} (h : allowChar c = true) : bulletMap c = c := by
  have hle := allow_le h
  rw [bulletMap, if_neg (by omega)]

theorem mapBullets_id (l : List Char) (h : ∀ c ∈ l, allowChar c = true) :
    mapBullets l = l := by
  induction l with
  | nil => rfl
  | cons c t ih =>
    rw [mapBullets, List.map_cons, bulletMap_eq_self (h c (List.mem_cons_self _ _))]
    exact congrArg _ (ih (fun d hd => h d (List.mem_cons_of_mem _ hd)))

theorem fixNumListsAux_id (f : Nat) (l : List Char) (h : '\n' ∉ l) :
    fixNumListsAux f l = l := by
  induction f generalizing l with
  | zero => rfl
  | succ f ih =>
    match l with
    | [] => rfl
    | c :: t =>
      have hc : ¬(c = '\n') := fun hc => h (hc ▸ List.mem_cons_self _ _)
      rw [fixNumListsAux, if_neg hc]
      exact congrArg _ (ih t (fun ht => h (List.mem_cons_of_mem _ ht)))

theorem fixNumLists_id (l : List Char) (h : '\n' ∉ l) : fixNumLists l = l :=
  fixNumListsAux_id _ _ h

theorem unwrapAux_id (prev : Option Char) (l : List Char) (h : '\n' ∉ l) :
    unwrapAux prev l = l := by
  induction l generalizing prev with
  | nil => rfl
  | cons c t ih =>
    have hc : ¬(c = '\n') := fun hc => h (hc ▸ List.mem_cons_self _ _)
    rw [unwrapAux, if_neg (fun hand => hc hand.1)]
    exact congrArg _ (ih _ (fun ht => h (List.mem_cons_of_mem _ ht)))

theorem unwrap_id (l : List Char) (h : '\n' ∉ l) : unwrap l = l := unwrapAux_id _ _ h

theorem cpAux_id (l : List Char) :
    (noDP l → collapsePunctAux none l = l) ∧
    (∀ c, isPunct c = true → noDP (c :: l) → collapsePunctAux (some c) l = l) := by
  induction l with
  | nil => exact ⟨fun _ => rfl, fun _ _ _ => rfl⟩
  | cons a t ih =>
    constructor
    · intro h
      rw [collapsePunctAux, if_neg (by simp)]
      by_cases hp : isPunct a
      · rw [if_pos hp]
        exact congrArg _ (ih.2 a hp h)
      · rw [if_neg hp]
        exact congrArg _ (ih.1 (noDP_tail h))
    · intro c hc h
      have hca : ¬(c = a) := fun he => h.1 ⟨he, hc⟩
      rw [collapsePunctAux, if_neg (fun he => hca (by injection he))]
      by_cases hp : isPunct a
      · rw [if_pos hp]
        exact congrArg _ (ih.2 a hp h.2)
      · rw [if_neg hp]
        exact congrArg _ (ih.1 (noDP_tail h.2))

theorem collapsePunct_id (l : List Char) (h : noDP l) : collapsePunct l = l :=
  (cpAux_id l).1 h

theorem dropWhile_dropWhile_same (p : Char → Bool) (l : List Char) :
    (l.dropWhile p).dropWhile p = l.dropWhile p := by
  induction l with
  | nil => rfl
  | cons a t ih =>
    by_cases ha : p a
    · rw [List.dropWhile_cons_of_pos ha]; exact ih
    · rw [List.dropWhile_cons_of_neg ha, List.dropWhile_cons_of_neg ha]

theorem rtrim_rtrim (l : List Char) : rtrim (rtrim l) = rtrim l := by
  induction l with
  | nil => rfl
  | cons c t ih =>
    rw [rtrim]
    by_cases hc : isPySpace c ∧ rtrim t = []
    · simp only [hc, if_true]; rfl
    · simp only [hc, if_false]
      rw [rtrim, ih]
      simp only [hc, if_false]

theorem dropWhile_rtrim_fix (l : List Char)
    (hl : l.dropWhile isPySpace = l) : (rtrim l).dropWhile isPySpace = rtrim l := by
  match l with
  | [] => rfl
  | c :: t =>
    have hc : isPySpace c = false := by
      by_contra hcc
      have hcp : isPySpace c = true := by
        revert hcc; cases isPySpace c <;> simp
      rw [List.dropWhile_cons_of_pos hcp] at hl
      have := congrArg List.length hl
      have hlen := (List.dropWhile_sublist (l := t) isPySpace).length_le
      simp at this
      omega
    rw [rtrim]
    by_cases h2 : isPySpace c ∧ rtrim t = []
    · simp only [h2, if_true]; rfl
    · simp only [h2, if_false]
      exact List.dropWhile_cons_of_neg (by simp [hc])

theorem stripL_stripL (l : List Char) : stripL (stripL l) = stripL l := by
  rw [stripL, stripL, dropWhile_rtrim_fix _ (dropWhile_dropWhile_same _ _), rtrim_rtrim]

attribute [irreducible] noDP

theorem filter_allow_id (l : List Char) (h : ∀ c ∈ l, allowChar c = true) :
    List.filter allowChar l = l := by
  induction l with
  | nil => rfl
  | cons c t ih =>
    rw [List.filter_cons_of_pos (h c (List.mem_cons_self _ _))]
    exact congrArg _ (ih (fun d hd => h d (List.mem_cons_of_mem _ hd)))

/-- C2.  For every input, `clean_text x` contains no newline: after the
whitespace-normalization stage no newline survives, so the blank-line
collapsing stage leaves its input unchanged and neither splitter separator
`"\n\n"` nor `"\n"` occurs in normalized text. -/
theorem clean_text_no_newline (x : List Char) :
    '\n' ∉ clean_text x ∧
    collapseBlankLines (stage10out x) = stage10out x ∧
    ¬ ['\n', '\n'] <:+: clean_text x ∧ ¬ ['\n'] <:+: clean_text x := by
  refine ⟨no_newline_clean x, collapseBlankLines_id _ (no_newline_stage10out x), ?_, ?_⟩
  · rintro ⟨s, t, he⟩
    exact no_newline_clean x (by rw [← he]; simp)
  · rintro ⟨s, t, he⟩
    exact no_newline_clean x (by rw [← he]; simp)

/-- C6.  Allow-list closure: every character of `clean_text x` belongs to the
allow-listed set (ASCII letters, digits, `. , ; : ? ! ( ) - / %`, space and
newline). -/
theorem clean_text_allowlist_closure (x : List Char) :
    ∀ c ∈ clean_text x, allowChar c = true :=
  fun _ h => allow_of_mem_clean x h

/-- C7.  `clean_text x` never contains two consecutive identical characters
drawn from `! ? . ,`. -/
theorem clean_text_no_double_punct (x : List Char) :
    ∀ (l1 : List Char) (a : Char) (l2 : List Char),
      clean_text x = l1 ++ a :: a :: l2 → isPunct a = false :=
  fun l1 a l2 he => noDP_no_pair (noDP_clean x) l1 a l2 he

/-- C8.  Scenario A: cleaning `"Page 3 of 20\n\nHello   world!!!  Visit
http://x.com now."` yields exactly `"Hello world! Visit now."` (page marker
stripped, whitespace collapsed, repeated punctuation collapsed, URL
removed). -/
theorem clean_text_scenarioA :
    clean_text ("Page 3 of 20\n\nHello   world!!!  Visit http://x.com now.".toList) =
      "Hello world! Visit now.".toList := by
  decide

/-- C1 counterexample.  `clean_text` is not idempotent: on `"a * b"` the
allow-list stage deletes `*` after whitespace was already collapsed, leaving
a double space that only a second application merges. -/
theorem clean_text_not_idempotent_cex :
    clean_text (clean_text ("a * b".toList)) ≠ clean_text ("a * b".toList) := by
  decide

/-- A cleaned text is a fixed point of `clean_text` as soon as the three
stages that can re-fire on cleaned text (URL removal, page-marker removal,
whitespace collapse) leave it unchanged; every other stage is inert on any
text that is allow-listed, newline-free, free of doubled punctuation and
stripped. -/
theorem clean_text_fix (y : List Char)
    (hallow : ∀ c ∈ y, allowChar c = true) (hnl : '\n' ∉ y) (hndp : noDP y)
    (h3 : removeUrls y = y) (h6 : removePage y = y) (h8 : collapseWs y = y)
    (hstrip : stripL y = y) :
    clean_text y = y := by
  rw [clean_text, stage10out, stage8out, removeTags_id _ hallow, h3,
    mapQuotes_id _ hallow, mapBullets_id _ hallow, fixNumLists_id _ hnl, h6,
    unwrap_id _ hnl, h8, filter_allow_id _ hallow, collapsePunct_id _ hndp,
    collapseBlankLines_id _ hnl, hstrip]

/-- C1 (amended).  `clean_text` is idempotent at every input whose cleaned
text is left unchanged by the URL-removal stage, the page-marker stage and
the whitespace-collapse stage — the three stages that can act again on
already-cleaned text (the allow-list stage can create double spaces and can
assemble URL-like or page-marker tokens by deleting characters).  All other
stages are provably inert on cleaned text. -/
theorem clean_text_idempotent_on_stable (x : List Char)
    (h3 : removeUrls (clean_text x) = clean_text x)
    (h6 : removePage (clean_text x) = clean_text x)
    (h8 : collapseWs (clean_text x) = clean_text x) :
    clean_text (clean_text x) = clean_text x := by
  have hallow : ∀ c ∈ clean_text x, allowChar c = true := fun c h => allow_of_mem_clean x h
  have hstrip : stripL (clean_text x) = clean_text x := by
    have he : clean_text x = stripL (collapseBlankLines (stage10out x)) := rfl
    rw [he]
    exact stripL_stripL _
  exact clean_text_fix (clean_text x) hallow (no_newline_clean x) (noDP_clean x) h3 h6 h8 hstrip

/-- Witness for the amended C1 at the concrete input `"hello(world)!"`. -/
theorem clean_text_idempotent_on_stable_witness :
    (removeUrls (clean_text ("hello(world)!".toList)) = clean_text ("hello(world)!".toList) ∧
     removePage (clean_text ("hello(world)!".toList)) = clean_text ("hello(world)!".toList) ∧
     collapseWs (clean_text ("hello(world)!".toList)) = clean_text ("hello(world)!".toList)) ∧
    clean_text (clean_text ("hello(world)!".toList)) = clean_text ("hello(world)!".toList) :=
  ⟨⟨by decide, by decide, by decide⟩,
    clean_text_idempotent_on_stable _ (by decide) (by decide) (by decide)⟩

theorem breakOn_eq {sep : List Char} : ∀ {t pre post : List Char},
    breakOn sep t = some (pre, post) → t = pre ++ sep ++ post := by
  intro t
  induction t with
  | nil =>
    intro pre post h
    rw [breakOn] at h
    by_cases hs : sep = []
    · simp only [hs, if_true, Option.some.injEq, Prod.mk.injEq] at h
      simp [hs, ← h.1, ← h.2]
    · simp [hs] at h
  | cons c t ih =>
    intro pre post h
    rw [breakOn] at h
    by_cases hp : sep.isPrefixOf (c :: t)
    · simp only [hp, if_true, Option.some.injEq, Prod.mk.injEq] at h
      obtain ⟨r, hr⟩ := List.isPrefixOf_iff_prefix.mp hp
      have hdrop : (c :: t).drop sep.length = r := by
        rw [← hr]; exact List.drop_left sep r
      rw [← h.1, ← h.2, hdrop, List.nil_append, ← hr]
    · simp only [hp, if_false] at h
      match hb : breakOn sep t with
      | some (pre', post') =>
        rw [hb] at h
        simp only [Bool.false_eq_true, if_false, Option.some.injEq, Prod.mk.injEq] at h
        rw [← h.1, ← h.2]
        simpa using congrArg (fun l => c :: l) (ih hb)
      | none => rw [hb] at h; simp at h

theorem breakOn_none_no_sep {sep : List Char} (hs : sep ≠ []) :
    ∀ {t : List Char}, breakOn sep t = none → ¬ sep <:+: t := by
  intro t
  induction t with
  | nil => exact fun _ hi => hs (List.infix_nil.mp hi)
  | cons c t ih =>
    intro h hi
    rw [breakOn] at h
    by_cases hp : sep.isPrefixOf (c :: t)
    · simp [hp] at h
    · simp only [hp, if_false] at h
      rcases List.infix_cons_iff.mp hi with hpre | hinf
      · exact hp (List.isPrefixOf_iff_prefix.mpr hpre)
      · match hb : breakOn sep t with
        | some (pre', post') => rw [hb] at h; exact absurd h (by simp)
        | none => exact ih hb hinf

theorem breakOn_pre_no_sep {sep : List Char} (hs : sep ≠ []) :
    ∀ {t pre post : List Char}, breakOn sep t = some (pre, post) → ¬ sep <:+: pre := by
  intro t
  induction t with
  | nil =>
    intro pre post h hi
    rw [breakOn] at h
    by_cases hsep : sep = []
    · exact hs hsep
    · simp [hsep] at h
  | cons c t ih =>
    intro pre post h hi
    rw [breakOn] at h
    by_cases hp : sep.isPrefixOf (c :: t)
    · simp only [hp, if_true, Option.some.injEq, Prod.mk.injEq] at h
      rw [← h.1] at hi
      exact hs (List.infix_nil.mp hi)
    · simp only [hp, if_false] at h
      match hb : breakOn sep t with
      | none => rw [hb] at h; simp at h
      | some (pre', post') =>
        rw [hb] at h
        simp only [Bool.false_eq_true, if_false, Option.some.injEq, Prod.mk.injEq] at h
        rw [← h.1] at hi
        rcases List.infix_cons_iff.mp hi with hpre | hinf
        · refine hp (List.isPrefixOf_iff_prefix.mpr (hpre.trans ?_))
          refine List.cons_prefix_cons.mpr ⟨rfl, ?_⟩
          rw [breakOn_eq hb]
          exact (List.prefix_append _ _).trans (List.prefix_append _ _)
        · exact ih hb hinf

theorem breakOn_post_lt {sep : List Char} (hs : sep ≠ []) {t pre post : List Char}
    (h : breakOn sep t = some (pre, post)) : post.length < t.length := by
  have he := breakOn_eq h
  have : t.length = pre.length + sep.length + post.length := by
    rw [he, List.length_append, List.length_append]
  have hsl : 0 < sep.length := List.length_pos.mpr hs
  omega

theorem splitOnFuel_no_sep {sep : List Char} (hs : sep ≠ []) :
    ∀ (f : Nat) (t : List Char), t.length ≤ f →
      ∀ p ∈ splitOnFuel f sep t, ¬ sep <:+: p := by
  intro f
  induction f with
  | zero =>
    intro t ht p hp
    have : t = [] := List.length_eq_zero.mp (Nat.le_zero.mp ht)
    subst this
    rw [splitOnFuel] at hp
    simp only [List.mem_singleton] at hp
    subst hp
    exact fun hi => hs (List.infix_nil.mp hi)
  | succ f ih =>
    intro t ht p hp
    rw [splitOnFuel] at hp
    match hb : breakOn sep t with
    | none =>
      rw [hb] at hp
      simp only [List.mem_singleton] at hp
      subst hp
      exact breakOn_none_no_sep hs hb
    | some (pre, post) =>
      rw [hb] at hp
      rcases List.mem_cons.mp hp with h1 | h1
      · subst h1; exact breakOn_pre_no_sep hs hb
      · have hlt := breakOn_post_lt hs hb
        exact ih post (by omega) p h1

theorem splitOnFuel_piece_within {sep : List Char} :
    ∀ (f : Nat) (t : List Char), ∀ p ∈ splitOnFuel f sep t, p <:+: t := by
  intro f
  induction f with
  | zero =>
    intro t p hp
    rw [splitOnFuel] at hp
    simp only [List.mem_singleton] at hp
    exact hp ▸ List.infix_refl t
  | succ f ih =>
    intro t p hp
    rw [splitOnFuel] at hp
    match hb : breakOn sep t with
    | none =>
      rw [hb] at hp
      simp only [List.mem_singleton] at hp
      exact hp ▸ List.infix_refl t
    | some (pre, post) =>
      rw [hb] at hp
      have he := breakOn_eq hb
      rcases List.mem_cons.mp hp with h1 | h1
      · subst h1
        exact ((List.prefix_append p (sep ++ post)).trans
          (by rw [he, List.append_assoc])).isInfix
      · refine (ih post p h1).trans ?_
        rw [he]
        exact (List.suffix_append (pre ++ sep) post).isInfix

theorem splitOnL_no_sep {sep : List Char} (hs : sep ≠ []) (t : List Char) :
    ∀ p ∈ splitOnL sep t, ¬ sep <:+: p := by
  intro p hp
  rw [splitOnL, if_neg hs] at hp
  exact splitOnFuel_no_sep hs t.length t (Nat.le_refl _) p hp

theorem splitOnL_piece_within (sep t : List Char) : ∀ p ∈ splitOnL sep t, p <:+: t := by
  intro p hp
  rw [splitOnL] at hp
  by_cases hs : sep = []
  · simp only [hs, if_true, List.mem_singleton] at hp
    exact hp ▸ List.infix_refl t
  · rw [if_neg hs] at hp
    exact splitOnFuel_piece_within t.length t p hp

theorem splitAtoms_piece_within (size : Nat) :
    ∀ (seps : List (List Char)) (t : List Char), ∀ p ∈ splitAtoms size seps t, p <:+: t := by
  intro seps
  induction seps with
  | nil =>
    intro t p hp
    match t with
    | [] =>
      simp only [splitAtoms, List.mem_singleton] at hp
      exact hp ▸ List.infix_refl _
    | c :: t' =>
      simp only [splitAtoms, List.mem_singleton] at hp
      exact hp ▸ List.infix_refl _
  | cons sep rest ih =>
    intro t p hp
    match t with
    | [] =>
      simp only [splitAtoms, List.mem_singleton] at hp
      exact hp ▸ List.infix_refl _
    | c :: t' =>
      simp only [splitAtoms] at hp
      by_cases hlen : (c :: t').length ≤ size
      · rw [if_pos hlen] at hp
        simp only [List.mem_singleton] at hp
        exact hp ▸ List.infix_refl _
      · rw [if_neg hlen] at hp
        simp only [List.mem_flatMap] at hp
        obtain ⟨q, hq, hpq⟩ := hp
        exact (ih q p hpq).trans (splitOnL_piece_within sep (c :: t') q hq)

theorem mem_splitAtoms_bound (size : Nat) :
    ∀ (seps : List (List Char)), (∀ s ∈ seps, s ≠ []) → ∀ (t : List Char),
      ∀ p ∈ splitAtoms size seps t,
        p.length ≤ size ∨ (size < p.length ∧ ∀ s ∈ seps, ¬ s <:+: p) := by
  intro seps
  induction seps with
  | nil =>
    intro _ t p hp
    match t with
    | [] =>
      simp only [splitAtoms, List.mem_singleton] at hp
      subst hp
      left; simp
    | c :: t' =>
      simp only [splitAtoms, List.mem_singleton] at hp
      subst hp
      by_cases h : (c :: t').length ≤ size
      · left; exact h
      · right; exact ⟨by omega, by simp⟩
  | cons sep rest ih =>
    intro hseps t p hp
    match t with
    | [] =>
      simp only [splitAtoms, List.mem_singleton] at hp
      subst hp
      left; simp
    | c :: t' =>
      simp only [splitAtoms] at hp
      by_cases hlen : (c :: t').length ≤ size
      · rw [if_pos hlen] at hp
        simp only [List.mem_singleton] at hp
        subst hp
        left; exact hlen
      · rw [if_neg hlen] at hp
        simp only [List.mem_flatMap] at hp
        obtain ⟨q, hq, hpq⟩ := hp
        have hresta : ∀ s ∈ rest, s ≠ [] := fun s hs => hseps s (List.mem_cons_of_mem _ hs)
        rcases ih hresta q p hpq with h1 | ⟨h1, h2⟩
        · left; exact h1
        · right
          refine ⟨h1, fun s hs => ?_⟩
          rcases List.mem_cons.mp hs with hs1 | hs1
          · subst hs1
            intro hinf
            exact splitOnL_no_sep (hseps s (List.mem_cons_self _ _)) (c :: t') q hq
              (hinf.trans (splitAtoms_piece_within size rest q p hpq))
          · exact h2 s hs1

theorem lastN_length (n : Nat) (l : List Char) : (lastN n l).length = min n l.length := by
  rw [lastN, List.length_drop]
  omega

theorem mergeChunks_bound (size ov : Nat) :
    ∀ (ps : List (List Char)) (buf : List Char), buf.length ≤ size →
      ∀ ch ∈ mergeChunks size ov buf ps,
        ch.length ≤ size ∨ (size < ch.length ∧ ch ∈ ps) := by
  intro ps
  induction ps with
  | nil =>
    intro buf hbuf ch hch
    rw [mergeChunks] at hch
    by_cases hb : buf = []
    · simp [hb] at hch
    · rw [if_neg hb] at hch
      simp only [List.mem_singleton] at hch
      subst hch
      left; exact hbuf
  | cons p ps ih =>
    intro buf hbuf ch hch
    simp only [mergeChunks] at hch
    by_cases h1 : size < p.length
    · rw [if_pos h1] at hch
      rcases List.mem_append.mp hch with hch1 | hch1
      · by_cases hb : buf = []
        · simp [hb] at hch1
        · rw [if_neg hb] at hch1
          simp only [List.mem_singleton] at hch1
          subst hch1
          left; exact hbuf
      · rcases List.mem_cons.mp hch1 with hch2 | hch2
        · subst hch2; right; exact ⟨h1, List.mem_cons_self _ _⟩
        · rcases ih [] (by simp) ch hch2 with h | ⟨ha, hb2⟩
          · left; exact h
          · right; exact ⟨ha, List.mem_cons_of_mem _ hb2⟩
    · rw [if_neg h1] at hch
      by_cases h2 : buf.length + p.length ≤ size
      · rw [if_pos h2] at hch
        rcases ih (buf ++ p) (by rw [List.length_append]; omega) ch hch with h | ⟨ha, hb2⟩
        · left; exact h
        · right; exact ⟨ha, List.mem_cons_of_mem _ hb2⟩
      · rw [if_neg h2] at hch
        by_cases h3 : (lastN ov buf).length + p.length ≤ size
        · rw [if_pos h3] at hch
          rcases List.mem_cons.mp hch with hch1 | hch1
          · subst hch1; left; exact hbuf
          · rcases ih _ (by rw [List.length_append]; omega) ch hch1 with h | ⟨ha, hb2⟩
            · left; exact h
            · right; exact ⟨ha, List.mem_cons_of_mem _ hb2⟩
        · rw [if_neg h3] at hch
          rcases List.mem_cons.mp hch with hch1 | hch1
          · subst hch1; left; exact hbuf
          · rcases ih p (by omega) ch hch1 with h | ⟨ha, hb2⟩
            · left; exact h
            · right; exact ⟨ha, List.mem_cons_of_mem _ hb2⟩

theorem mergeChunks_head_prefix (size ov : Nat) :
    ∀ (ps : List (List Char)) (buf h : List Char),
      (mergeChunks size ov buf ps).head? = some h → buf <+: h := by
  intro ps
  induction ps with
  | nil =>
    intro buf h hh
    rw [mergeChunks] at hh
    by_cases hb : buf = []
    · simp [hb] at hh
    · rw [if_neg hb] at hh
      simp only [List.head?_cons, Option.some.injEq] at hh
      exact hh ▸ List.prefix_refl _
  | cons p ps ih =>
    intro buf h hh
    simp only [mergeChunks] at hh
    by_cases h1 : size < p.length
    · rw [if_pos h1] at hh
      by_cases hb : buf = []
      · subst hb
        exact List.nil_prefix
      · rw [if_neg hb] at hh
        simp only [List.singleton_append, List.head?_cons, Option.some.injEq] at hh
        exact hh ▸ List.prefix_refl _
    · rw [if_neg h1] at hh
      by_cases h2 : buf.length + p.length ≤ size
      · rw [if_pos h2] at hh
        exact (List.prefix_append buf p).trans (ih _ _ hh)
      · rw [if_neg h2] at hh
        by_cases h3 : (lastN ov buf).length + p.length ≤ size
        · rw [if_pos h3] at hh
          simp only [List.head?_cons, Option.some.injEq] at hh
          exact hh ▸ List.prefix_refl _
        · rw [if_neg h3] at hh
          simp only [List.head?_cons, Option.some.injEq] at hh
          exact hh ▸ List.prefix_refl _

/-- The overlap relation between consecutive chunks: either the second chunk
starts with the trailing `ov` characters of the first, or the first chunk is
oversized, or the second chunk together with the overlap would not fit inside
`size` (the seed was dropped to keep the size bound). -/
def chunkRel (size ov : Nat) (a b : List Char) : Prop :=
  lastN ov a <+: b ∨ size < a.length ∨ size < b.length + ov

theorem mergeChunks_chain (size ov : Nat) :
    ∀ (ps : List (List Char)) (buf : List Char),
      List.Chain' (chunkRel size ov) (mergeChunks size ov buf ps) := by
  intro ps
  induction ps with
  | nil =>
    intro buf
    rw [mergeChunks]
    by_cases hb : buf = []
    · simp [hb]
    · rw [if_neg hb]
      exact List.chain'_singleton _
  | cons p ps ih =>
    intro buf
    simp only [mergeChunks]
    by_cases h1 : size < p.length
    · rw [if_pos h1]
      have hc : List.Chain' (chunkRel size ov) (p :: mergeChunks size ov [] ps) := by
        refine List.chain'_cons'.mpr ⟨?_, ih []⟩
        intro y _
        exact Or.inr (Or.inl h1)
      by_cases hb : buf = []
      · simpa [hb] using hc
      · rw [if_neg hb, List.singleton_append]
        refine List.chain'_cons'.mpr ⟨?_, hc⟩
        intro y hy
        simp only [List.head?_cons, Option.mem_def, Option.some.injEq] at hy
        subst hy
        exact Or.inr (Or.inr (by omega))
    · rw [if_neg h1]
      by_cases h2 : buf.length + p.length ≤ size
      · rw [if_pos h2]; exact ih _
      · rw [if_neg h2]
        by_cases h3 : (lastN ov buf).length + p.length ≤ size
        · rw [if_pos h3]
          refine List.chain'_cons'.mpr ⟨?_, ih _⟩
          intro y hy
          have hpre := mergeChunks_head_prefix size ov ps _ y (Option.mem_def.mp hy)
          exact Or.inl ((List.prefix_append (lastN ov buf) p).trans hpre)
        · rw [if_neg h3]
          refine List.chain'_cons'.mpr ⟨?_, ih _⟩
          intro y hy
          have hpre := mergeChunks_head_prefix size ov ps p y (Option.mem_def.mp hy)
          have hylen : p.length ≤ y.length := hpre.length_le
          have hl : (lastN ov buf).length = min ov buf.length := lastN_length _ _
          exact Or.inr (Or.inr (by omega))

/-- C3 counterexample.  With `chunk_size=10`, `chunk_overlap=3` and the
configured separators, the separator-free text `"abcdefghijklmno"` is NOT
split into `"abcdefghij"` and `"hijklmno"`. -/
theorem scenarioB_two_chunk_cex :
    splitText 10 3 progSeps ("abcdefghijklmno".toList) ≠
      ["abcdefghij".toList, "hijklmno".toList] := by
  decide

/-- C3 (amended).  With `chunk_size=10`, `chunk_overlap=3` and the configured
separators, the separator-free text `"abcdefghijklmno"` is a single
unbreakable token longer than `chunk_size`, so the splitter emits it as-is:
exactly one chunk, the whole text, with no character-level splitting and no
overlap. -/
theorem scenarioB_single_chunk :
    splitText 10 3 progSeps ("abcdefghijklmno".toList) = ["abcdefghijklmno".toList] ∧
    10 < ("abcdefghijklmno".toList).length ∧
    ∀ s ∈ progSeps, ¬ s <:+: ("abcdefghijklmno".toList) :=
  ⟨by decide, by decide, by decide⟩

/-- C4 counterexample.  With `chunk_size=10`, `chunk_overlap=3`, the text
`"abcdefgh ijklmnopq"` yields chunks `"abcdefgh"` and `"ijklmnopq"`: the first
chunk is not oversized, yet the second does not begin with the trailing three
characters `"fgh"` of the first (the seed was dropped because `3 + 9 > 10`). -/
theorem chunk_overlap_exact_cex :
    splitText 10 3 progSeps ("abcdefgh ijklmnopq".toList) =
      ["abcdefgh".toList, "ijklmnopq".toList] ∧
    ("abcdefgh".toList).length ≤ 10 ∧
    ¬ lastN 3 ("abcdefgh".toList) <+: ("ijklmnopq".toList) :=
  ⟨by decide, by decide, by decide⟩

/-- C4 (amended).  For consecutive chunks of the splitter, chunk `i+1` begins
with the trailing `chunk_overlap` characters of chunk `i`, unless chunk `i` is
oversized (longer than `chunk_size`) or the overlap seed cannot fit: when
chunk `i+1` together with the overlap would exceed `chunk_size`, the seed is
dropped to preserve the size invariant. -/
theorem chunk_overlap_relaxed (size ov : Nat) (seps : List (List Char)) (t : List Char) :
    ∀ (i : Nat) (hi : i + 1 < (splitText size ov seps t).length),
      lastN ov ((splitText size ov seps t).get ⟨i, by omega⟩) <+:
        (splitText size ov seps t).get ⟨i + 1, hi⟩ ∨
      size < ((splitText size ov seps t).get ⟨i, by omega⟩).length ∨
      size < ((splitText size ov seps t).get ⟨i + 1, hi⟩).length + ov := by
  intro i hi
  have hc := mergeChunks_chain size ov (splitAtoms size seps t) []
  have he : mergeChunks size ov [] (splitAtoms size seps t) = splitText size ov seps t := rfl
  rw [he, List.chain'_iff_get] at hc
  exact hc i (by omega)

/-- C5.  Every chunk produced by the splitter has length at most `chunk_size`,
except when the chunk is a single unbreakable atomic token (containing no
occurrence of any configured separator) that itself exceeds `chunk_size`, in
which case it is emitted whole. -/
theorem chunk_size_bound (size ov : Nat) (seps : List (List Char)) (t : List Char)
    (hseps : ∀ s ∈ seps, s ≠ []) :
    ∀ ch ∈ splitText size ov seps t,
      ch.length ≤ size ∨
      (size < ch.length ∧ ch ∈ splitAtoms size seps t ∧ ∀ s ∈ seps, ¬ s <:+: ch) := by
  intro ch hch
  rcases mergeChunks_bound size ov (splitAtoms size seps t) [] (by simp) ch hch with h | ⟨h1, h2⟩
  · left; exact h
  · rcases mem_splitAtoms_bound size seps hseps t ch h2 with h3 | ⟨_, h4⟩
    · exact absurd h3 (by omega)
    · right; exact ⟨h1, h2, h4⟩

/-- Witness for C5 at the program configuration (`chunk_size=1000`,
`chunk_overlap=150`, separators `"\n\n"`, `"\n"`, `"."`, `" "`). -/
theorem chunk_size_bound_witness :
    (∀ s ∈ progSeps, s ≠ []) ∧
    ∀ ch ∈ splitText 1000 150 progSeps ("aaa bbb".toList),
      ch.length ≤ 1000 ∨
      (1000 < ch.length ∧ ch ∈ splitAtoms 1000 progSeps ("aaa bbb".toList) ∧
        ∀ s ∈ progSeps, ¬ s <:+: ch) :=
  ⟨by decide, chunk_size_bound 1000 150 progSeps _ (by decide)⟩

/-- C9 counterexample.  With `chunk_size=500`, `chunk_overlap=1000`
(overlap exceeding size) and an existing supported file, the run trace shows
the Loader ran (and cleaning happened) BEFORE the configuration error was
raised at splitter construction — the error is not raised before the Loader. -/
theorem invalid_config_after_loader_cex :
    (⟨500, 1000⟩ : SplitCfg).size ≤ (⟨500, 1000⟩ : SplitCfg).overlap ∧
    mainTrace ⟨500, 1000⟩ ("doc.pdf".toList) true =
      [PipeEvent.existsCheck, PipeEvent.loaderRun, PipeEvent.cleaningDone,
        PipeEvent.invalidConfig] ∧
    PipeEvent.loaderRun ∈ mainTrace ⟨500, 1000⟩ ("doc.pdf".toList) true :=
  ⟨by decide, by decide, by decide⟩

/-- C9 (amended).  When `chunk_overlap ≥ chunk_size` and the input file exists
with a supported extension, the run raises the configuration error at splitter
construction inside preprocessing: after the Loader has run and cleaning is
done, but before any splitting or saving occurs. -/
theorem invalid_config_at_split_time (cfg : SplitCfg) (p : List Char) (k : LoaderKind)
    (hload : load_file p = Except.ok k) (hover : cfg.size ≤ cfg.overlap) :
    mainTrace cfg p true =
      [PipeEvent.existsCheck, PipeEvent.loaderRun, PipeEvent.cleaningDone,
        PipeEvent.invalidConfig] ∧
    PipeEvent.splitDone ∉ mainTrace cfg p true ∧
    PipeEvent.saved ∉ mainTrace cfg p true := by
  have ht : mainTrace cfg p true =
      [PipeEvent.existsCheck, PipeEvent.loaderRun, PipeEvent.cleaningDone,
        PipeEvent.invalidConfig] := by
    simp [mainTrace, hload, hover]
  refine ⟨ht, ?_, ?_⟩ <;> rw [ht] <;> decide

/-- Witness for the amended C9 at `chunk_size=500`, `chunk_overlap=1000`,
path `"doc.pdf"`. -/
theorem invalid_config_at_split_time_witness :
    (load_file ("doc.pdf".toList) = Except.ok LoaderKind.pypdf ∧ (500 : Nat) ≤ 1000) ∧
    (mainTrace ⟨500, 1000⟩ ("doc.pdf".toList) true =
      [PipeEvent.existsCheck, PipeEvent.loaderRun, PipeEvent.cleaningDone,
        PipeEvent.invalidConfig] ∧
     PipeEvent.splitDone ∉ mainTrace ⟨500, 1000⟩ ("doc.pdf".toList) true ∧
     PipeEvent.saved ∉ mainTrace ⟨500, 1000⟩ ("doc.pdf".toList) true) :=
  ⟨⟨rfl, by decide⟩,
    invalid_config_at_split_time ⟨500, 1000⟩ _ LoaderKind.pypdf rfl (by decide)⟩

/-- C10.  For every path whose lowercased suffix is not one of the six
supported extensions, `load_file` raises the unsupported-file-type error
without selecting any extraction strategy, and the run trace contains only the
existence check before the error: the Loader never runs. -/
theorem unsupported_ext_early_error (cfg : SplitCfg) (p : List Char)
    (h : extOf p ∉ supportedExts) :
    load_file p = Except.error (extOf p) ∧
    mainTrace cfg p true = [PipeEvent.existsCheck, PipeEvent.unsupportedError] ∧
    PipeEvent.loaderRun ∉ mainTrace cfg p true := by
  simp only [supportedExts, List.mem_cons, List.not_mem_nil, or_false] at h
  push_neg at h
  obtain ⟨h1, h2, h3, h4, h5, h6⟩ := h
  have hl : load_file p = Except.error (extOf p) := by
    rw [load_file, if_neg h1, if_neg (not_or.mpr ⟨h2, h3⟩), if_neg (not_or.mpr ⟨h4, h5⟩),
      if_neg h6]
  have ht : mainTrace cfg p true = [PipeEvent.existsCheck, PipeEvent.unsupportedError] := by
    simp [mainTrace, hl]
  refine ⟨hl, ht, ?_⟩
  rw [ht]
  decide

/-- Witness for C10 at the unsupported path `"file.xyz"`. -/
theorem unsupported_ext_early_error_witness :
    (extOf ("file.xyz".toList) ∉ supportedExts) ∧
    (load_file ("file.xyz".toList) = Except.error (extOf ("file.xyz".toList)) ∧
     mainTrace ⟨1000, 150⟩ ("file.xyz".toList) true =
       [PipeEvent.existsCheck, PipeEvent.unsupportedError] ∧
     PipeEvent.loaderRun ∉ mainTrace ⟨1000, 150⟩ ("file.xyz".toList) true) :=
  ⟨by decide, unsupported_ext_early_error ⟨1000, 150⟩ _ (by decide)⟩

/-- Witness for the amended C4 at `chunk_size=10`, `chunk_overlap=3`, text
`"abc def ghi jkl mno pqr"`, adjacent pair at index 0. -/
theorem chunk_overlap_relaxed_witness :
    (0 + 1 < (splitText 10 3 progSeps ("abc def ghi jkl mno pqr".toList)).length) ∧
    (lastN 3 ((splitText 10 3 progSeps ("abc def ghi jkl mno pqr".toList)).get
        ⟨0, by decide⟩) <+:
      (splitText 10 3 progSeps ("abc def ghi jkl mno pqr".toList)).get ⟨0 + 1, by decide⟩ ∨
     10 < ((splitText 10 3 progSeps ("abc def ghi jkl mno pqr".toList)).get
        ⟨0, by decide⟩).length ∨
     10 < ((splitText 10 3 progSeps ("abc def ghi jkl mno pqr".toList)).get
        ⟨0 + 1, by decide⟩).length + 3) :=
  ⟨by decide, chunk_overlap_relaxed 10 3 progSeps ("abc def ghi jkl mno pqr".toList) 0 (by decide)⟩

/-- Witness for C6 at the concrete input `"ab"` and character `'a'`. -/
theorem clean_text_allowlist_closure_witness :
    'a' ∈ clean_text ("ab".toList) ∧ allowChar 'a' = true :=
  ⟨by decide, clean_text_allowlist_closure ("ab".toList) 'a' (by decide)⟩

/-- Witness for C7 at the concrete input `"aa"`, whose cleaned form contains
the doubled (non-punctuation) character `'a'`. -/
theorem clean_text_no_double_punct_witness :
    clean_text ("aa".toList) = [] ++ 'a' :: 'a' :: [] ∧ isPunct 'a' = false :=
  ⟨by decide, clean_text_no_double_punct ("aa".toList) [] 'a' [] (by decide)⟩
